import Mathlib

/-!
Verification of integer-kernel and adaptive-precision routines of the
mpmath repository (files `mpmath/libmp/libintmath.py`,
`mpmath/libmp/backend.py`, `mpmath/functions/functions.py`).

Each Python routine relevant to a checked property is embedded as an
executable Lean definition that mirrors the source control flow.  Python
integers are modelled by `Nat`/`Int` (Python integer arithmetic is exact,
and `//`, `%` on nonnegative operands agree with `Nat` division and
modulus; on a negative dividend with positive divisor Python floor-mod
agrees with `Int.emod`).  Unbounded `while` loops are modelled with an
explicit fuel parameter so that every definition stays executable; a
`none` result means the loop did not finish within the given fuel.
-/

namespace Mpmath

/-! ## giant_steps (libintmath.py lines 21-43)

Python source:
```
L = [target]
while L[-1] > start*n:
    L = L + [L[-1]//n + 2]
return L[::-1]
```
The accumulator is kept reversed (most recent element first), so the
value returned on loop exit is already in the order of the Python result
`L[::-1]`.  The loop state is the most recent element `h` together with
the (reversed) tail `rest`; initially `h = target`, `rest = []`. -/

/-- Fuel-indexed embedding of the `giant_steps` loop. -/
def gsAux (start n : ℕ) : ℕ → ℕ → List ℕ → Option (List ℕ)
  | 0, _, _ => none
  | fuel+1, h, rest =>
    if start * n < h then gsAux start n fuel (h / n + 2) (h :: rest)
    else some (h :: rest)

/-- The function `giant_steps(start, target, n=2)`.  The fuel `target + 1`
is enough for every terminating run, because the loop value strictly
decreases on every iteration of a terminating run. -/
def giant_steps (start target : ℕ) (n : ℕ := 2) : Option (List ℕ) :=
  gsAux start n (target + 1) target []

/-- The source loop never terminates: whenever the loop value `h` is a
fixed point of the update `h ↦ h / n + 2` and still exceeds `start * n`,
the loop reproduces the same state forever. -/
lemma gsAux_stuck {start n h : ℕ} (hfix : h / n + 2 = h) (hgt : start * n < h) :
    ∀ fuel rest, gsAux start n fuel h rest = none := by
  intro fuel
  induction fuel with
  | zero => intro rest; rfl
  | succ f ih =>
      intro rest
      rw [gsAux, if_pos hgt, hfix]
      exact ih (h :: rest)

/-- On a continuing iteration the loop value never increases. -/
lemma gs_step_le {start n h : ℕ} (hs : 1 ≤ start) (hn : 2 ≤ n)
    (hgt : start * n < h) : h / n + 2 ≤ h := by
  have h3 : 3 ≤ h := by nlinarith
  have hdiv : h / n ≤ h / 2 := Nat.div_le_div_left hn (by norm_num)
  have hmod := Nat.div_add_mod h 2
  have hlt : h % 2 < 2 := Nat.mod_lt _ (by norm_num)
  omega

/-- Lower bound on the next loop value. -/
lemma gs_step_gt {start n h : ℕ} (hn : 2 ≤ n) (hgt : start * n < h) :
    start < h / n + 2 := by
  have h0 : 0 < n := by omega
  have : start ≤ h / n := (Nat.le_div_iff_mul_le h0).2 (le_of_lt hgt)
  omega

/-- Successive elements respect the step bound: the old loop value is at
most `n` times the new one. -/
lemma gs_step_mul {n h : ℕ} (hn : 2 ≤ n) : h ≤ n * (h / n + 2) := by
  have h0 : 0 < n := by omega
  have h1 : n * (h / n) + h % n = h := Nat.div_add_mod h n
  have h2 : h % n < n := Nat.mod_lt h h0
  nlinarith

/-- More fuel does not change a result that was already reached. -/
lemma gsAux_mono {start n : ℕ} :
    ∀ {fuel fuel' h rest l}, fuel ≤ fuel' →
      gsAux start n fuel h rest = some l → gsAux start n fuel' h rest = some l := by
  intro fuel
  induction fuel with
  | zero => intro _ _ _ _ _ hsome; exact absurd hsome (by simp [gsAux])
  | succ f ih =>
      intro fuel' h rest l hle hsome
      obtain ⟨f', rfl⟩ : ∃ f', fuel' = f' + 1 := ⟨fuel' - 1, by omega⟩
      rw [gsAux] at hsome ⊢
      by_cases hc : start * n < h
      · rw [if_pos hc] at hsome ⊢
        exact ih (by omega) hsome
      · rwa [if_neg hc] at hsome ⊢

/-- Soundness of the `giant_steps` loop: whatever list a terminating run
returns extends the accumulator, is strictly increasing with consecutive
step factor at most `n`, keeps the last element of the accumulator, and
starts above `start`. -/
lemma gsAux_sound {start n : ℕ} (hs : 1 ≤ start) (hn : 2 ≤ n) :
    ∀ fuel h rest l, gsAux start n fuel h rest = some l → start < h →
      List.Chain' (fun a b => a < b ∧ b ≤ n * a) (h :: rest) →
      List.Chain' (fun a b => a < b ∧ b ≤ n * a) l ∧
      (∀ f, l.head? = some f → start < f) ∧
      l.getLast? = (h :: rest).getLast? := by
  intro fuel
  induction fuel with
  | zero => intro h rest l hsome; exact absurd hsome (by simp [gsAux])
  | succ f ih =>
      intro h rest l hsome hstart hchain
      rw [gsAux] at hsome
      by_cases hc : start * n < h
      · rw [if_pos hc] at hsome
        have hle := gs_step_le hs hn hc
        rcases Nat.lt_or_ge (h / n + 2) h with hlt | hge
        · have hchain2 : List.Chain' (fun a b => a < b ∧ b ≤ n * a)
              ((h / n + 2) :: h :: rest) :=
            List.chain'_cons.mpr ⟨⟨hlt, gs_step_mul hn⟩, hchain⟩
          have hres := ih (h / n + 2) (h :: rest) l hsome (gs_step_gt hn hc) hchain2
          refine ⟨hres.1, hres.2.1, ?_⟩
          rw [hres.2.2]
          exact List.getLast?_cons_cons
        · have heq : h / n + 2 = h := le_antisymm hle hge
          rw [heq, gsAux_stuck heq hc] at hsome
          cases hsome
      · rw [if_neg hc] at hsome
        cases hsome
        refine ⟨hchain, ?_, rfl⟩
        intro f hf
        simp only [List.head?_cons, Option.some.injEq] at hf
        omega

/-- C4: for every `start ≥ 1`, `target > start`, `n ≥ 2` for which the
`giant_steps` loop terminates, the returned list is strictly increasing
with consecutive elements in step factor at most `n`, ends in `target`,
and starts strictly above `start`; moreover the two documented example
evaluations hold. -/
theorem giant_steps_contract :
    (∀ start target n fuel l, 1 ≤ start → start < target → 2 ≤ n →
        gsAux start n fuel target [] = some l →
        List.Chain' (fun a b => a < b ∧ b ≤ n * a) l ∧
        l.getLast? = some target ∧
        ∀ f, l.head? = some f → start < f) ∧
    giant_steps 50 1000 = some [66, 128, 253, 502, 1000] ∧
    giant_steps 50 1000 4 = some [65, 252, 1000] := by
  refine ⟨?_, rfl, rfl⟩
  intro start target n fuel l hs ht hn hsome
  have hres := gsAux_sound hs hn fuel target [] l hsome (by omega)
    (List.chain'_singleton _)
  exact ⟨hres.1, by rw [hres.2.2]; rfl, hres.2.1⟩

/-- Witness for C4 at `start = 50`, `target = 1000`, `n = 2`. -/
theorem giant_steps_contract_witness :
    List.Chain' (fun a b => a < b ∧ b ≤ 2 * a) [66, 128, 253, 502, 1000] ∧
    ([66, 128, 253, 502, 1000] : List ℕ).getLast? = some 1000 ∧
    (∀ f, ([66, 128, 253, 502, 1000] : List ℕ).head? = some f → 50 < f) :=
  giant_steps_contract.1 50 1000 2 1001 [66, 128, 253, 502, 1000]
    (by decide) (by decide) (by decide) rfl

/-- Termination of `giant_steps(start, target, n)`, expressed over the
fuel-indexed embedding: some finite fuel makes the loop finish. -/
def GiantStepsTerminates (start target n : ℕ) : Prop :=
  ∃ fuel, (gsAux start n fuel target []).isSome

/-- C5 counterexample: `giant_steps(1, 3, 2)` never terminates, because
`3 // 2 + 2 = 3` and `3 > 1 * 2`, so the loop repeats the value 3 forever. -/
theorem giant_steps_diverges_at_1_3_2 : ¬ GiantStepsTerminates 1 3 2 := by
  rintro ⟨fuel, hf⟩
  rw [gsAux_stuck (by norm_num) (by norm_num)] at hf
  exact absurd hf (by simp)

/-- Terminating fuel bound for the loop when `start * n ≥ 3`. -/
lemma gsAux_term {start n : ℕ} (hs : 1 ≤ start) (hn : 2 ≤ n)
    (h3 : 3 ≤ start * n) :
    ∀ h rest, ∃ l, gsAux start n (h + 1) h rest = some l := by
  intro h
  induction h using Nat.strong_induction_on with
  | _ h ih =>
    intro rest
    by_cases hc : start * n < h
    · have hlt : h / n + 2 < h := by
        rcases Nat.lt_or_ge h 5 with h5 | h5
        · have hh : h = 4 := by omega
          have hsn : start * n = 3 := by omega
          have hn3 : n = 3 := by
            rcases Nat.lt_or_ge n 4 with hn4 | hn4
            · interval_cases n
              · omega
              · omega
            · nlinarith
          subst hh hn3
          norm_num
        · have hdiv : h / n ≤ h / 2 := Nat.div_le_div_left hn (by norm_num)
          have hmod := Nat.div_add_mod h 2
          have hm2 : h % 2 < 2 := Nat.mod_lt _ (by norm_num)
          omega
      obtain ⟨l, hl⟩ := ih (h / n + 2) hlt (h :: rest)
      refine ⟨l, ?_⟩
      rw [gsAux, if_pos hc]
      exact gsAux_mono (by omega) hl
    · exact ⟨h :: rest, by rw [gsAux, if_neg hc]⟩

/-- C5 amended: `giant_steps(start, target, n)` terminates for every
`start ≥ 1`, `target > start`, `n ≥ 2` except in the excluded family
`n = 2`, `start = 1`, `target ≥ 3` (where the loop gets stuck, as the
counterexample shows). -/
theorem giant_steps_terminates :
    ∀ start target n, 1 ≤ start → start < target → 2 ≤ n →
      ¬(n = 2 ∧ start = 1 ∧ 3 ≤ target) →
      GiantStepsTerminates start target n := by
  intro start target n hs ht hn hexc
  by_cases hcase : n = 2 ∧ start = 1
  · obtain ⟨rfl, rfl⟩ := hcase
    have h2 : target = 2 := by
      rcases Nat.lt_or_ge target 3 with hh | hh
      · omega
      · exact absurd ⟨rfl, rfl, hh⟩ hexc
    subst h2
    exact ⟨1, by decide⟩
  · have h3 : 3 ≤ start * n := by
      rcases Nat.lt_or_ge start 2 with h1 | h2
      · have hs1 : start = 1 := by omega
        have hn3 : 3 ≤ n := by
          rcases Nat.lt_or_ge n 3 with hh | hh
          · exact absurd ⟨by omega, hs1⟩ hcase
          · exact hh
        nlinarith
      · nlinarith
    obtain ⟨l, hl⟩ := gsAux_term hs hn h3 target []
    exact ⟨target + 1, by rw [hl]; rfl⟩

/-- Witness for the amended C5 at `start = 2`, `target = 10`, `n = 2`. -/
theorem giant_steps_terminates_witness : GiantStepsTerminates 2 10 2 :=
  giant_steps_terminates 2 10 2 (by decide) (by decide) (by decide) (by decide)

/-! ## moebius (libintmath.py lines 391-408)

Python source:
```
n = abs(int(n))
if n < 2:
    return n
factors = []
for p in range(2, n+1):
    if not (n % p):
        if not (n % p**2):
            return 0
        if not sum(p % f for f in factors):
            factors.append(p)
return (-1)**len(factors)
```
-/

/-- Body of the `for p in range(2, n+1)` loop of `moebius`; the fuel is
the number of remaining loop iterations. -/
def mAux (n : ℕ) : ℕ → ℕ → List ℕ → ℤ
  | 0, _, factors => (-1) ^ factors.length
  | fuel+1, p, factors =>
    if n % p = 0 then
      if n % p ^ 2 = 0 then 0
      else if (factors.map fun f => p % f).sum = 0 then
        mAux n fuel (p + 1) (factors ++ [p])
      else mAux n fuel (p + 1) factors
    else mAux n fuel (p + 1) factors

/-- The function `moebius(n)`.  The loop runs `p` over `range(2, n+1)`,
which is `n - 1` iterations. -/
def moebius (n : ℤ) : ℤ :=
  let m := n.natAbs
  if m < 2 then (m : ℤ) else mAux m (m - 1) 2 []


/-! ## Trial-division oracles

The claims compare the embedded routines against independent oracles.
The oracles below scan divisor candidates only up to the square root, so
that they stay cheap enough for kernel evaluation, and are proved
equivalent to the mathematical notions (`Nat.Prime`, divisibility by a
prime square). -/

/-- True when `n` has no divisor `m` with `d ≤ m` and `m * m ≤ n`; the
fuel only needs to reach from `d` past `Nat.sqrt n`. -/
def noDivisorBelow : ℕ → ℕ → ℕ → Bool
  | 0, _, _ => true
  | f+1, d, n =>
    if n < d * d then true
    else decide (n % d ≠ 0) && noDivisorBelow f (d + 1) n

/-- Kernel-computable primality oracle by trial division up to the
square root. -/
def isPrimeBool (n : ℕ) : Bool := decide (2 ≤ n) && noDivisorBelow n 2 n

lemma noDivisorBelow_iff {n : ℕ} :
    ∀ f d, Nat.sqrt n < d + f →
      (noDivisorBelow f d n = true ↔ ∀ m, d ≤ m → m * m ≤ n → ¬m ∣ n) := by
  intro f
  induction f with
  | zero =>
      intro d h
      simp only [noDivisorBelow, true_iff]
      intro m hdm hm _
      have := Nat.le_sqrt.2 hm
      omega
  | succ f ih =>
      intro d h
      rw [noDivisorBelow]
      by_cases hc : n < d * d
      · rw [if_pos hc]
        simp only [true_iff]
        intro m hdm hm
        exact absurd (le_trans (Nat.mul_le_mul hdm hdm) hm) (by omega)
      · rw [if_neg hc]
        simp only [Bool.and_eq_true, decide_eq_true_eq]
        push_neg at hc
        constructor
        · rintro ⟨hmod, hrest⟩ m hdm hmsq hdvd
          rcases eq_or_lt_of_le hdm with rfl | hlt
          · exact hmod (Nat.dvd_iff_mod_eq_zero.1 hdvd)
          · exact (ih (d + 1) (by omega)).1 hrest m hlt hmsq hdvd
        · intro hall
          refine ⟨fun hmod => hall d le_rfl hc (Nat.dvd_iff_mod_eq_zero.2 hmod), ?_⟩
          exact (ih (d + 1) (by omega)).2 fun m hdm hmsq hdvd =>
            hall m (by omega) hmsq hdvd

lemma isPrimeBool_iff {n : ℕ} : isPrimeBool n = true ↔ n.Prime := by
  rw [Nat.prime_def_le_sqrt, isPrimeBool]
  simp only [Bool.and_eq_true, decide_eq_true_eq]
  have hf : Nat.sqrt n < 2 + n := by
    have := Nat.sqrt_le_self n
    omega
  rw [noDivisorBelow_iff n 2 hf]
  constructor
  · rintro ⟨h2, h⟩
    exact ⟨h2, fun m hm2 hms => h m hm2 (Nat.le_sqrt.1 hms)⟩
  · rintro ⟨h2, h⟩
    exact ⟨h2, fun m hm2 hms => h m hm2 (Nat.le_sqrt.2 hms)⟩

/-! ## Correctness of the moebius loop

The loop of `moebius` scans every `p` in `[2, n]`.  A divisor `p` is
appended to `factors` exactly when every previously appended entry
divides it; for squarefree `n` the appended entries turn out to be the
prefix products of the increasing sequence of prime factors of `n`, so
the final length of `factors` is the number of distinct prime factors.
The invariant below carries the last appended entry `L` (1 for the
empty list) and the facts making this work, with no reference to any
explicit ordering of the primes. -/

lemma map_mod_sum_eq_zero_iff {p : ℕ} :
    ∀ F : List ℕ, ((F.map fun f => p % f).sum = 0 ↔ ∀ f ∈ F, p % f = 0) := by
  intro F
  induction F with
  | nil => simp
  | cons a l ih => simp [ih, Nat.add_eq_zero]

lemma mAux_zero_iff (N : ℕ) :
    ∀ fuel p F, (mAux N fuel p F = 0 ↔
      ∃ j, p ≤ j ∧ j < p + fuel ∧ N % j = 0 ∧ N % j ^ 2 = 0) := by
  intro fuel
  induction fuel with
  | zero =>
      intro p F
      rw [mAux]
      constructor
      · intro h
        exact absurd h (pow_ne_zero _ (by norm_num))
      · rintro ⟨j, h1, h2, _, _⟩
        omega
  | succ fuel ih =>
      intro p F
      rw [mAux]
      by_cases hdvd : N % p = 0
      · rw [if_pos hdvd]
        by_cases hp2 : N % p ^ 2 = 0
        · rw [if_pos hp2]
          constructor
          · intro _
            exact ⟨p, le_rfl, by omega, hdvd, hp2⟩
          · intro _
            rfl
        · rw [if_neg hp2]
          have hnext : ∀ F', (mAux N fuel (p + 1) F' = 0 ↔
              ∃ j, p ≤ j ∧ j < p + (fuel + 1) ∧ N % j = 0 ∧ N % j ^ 2 = 0) := by
            intro F'
            rw [ih (p + 1) F']
            constructor
            · rintro ⟨j, h1, h2, h3, h4⟩
              exact ⟨j, by omega, by omega, h3, h4⟩
            · rintro ⟨j, h1, h2, h3, h4⟩
              rcases eq_or_lt_of_le h1 with rfl | hj
              · exact absurd h4 hp2
              · exact ⟨j, by omega, by omega, h3, h4⟩
          by_cases hsum : (F.map fun f => p % f).sum = 0
          · rw [if_pos hsum]
            exact hnext (F ++ [p])
          · rw [if_neg hsum]
            exact hnext F
      · rw [if_neg hdvd]
        rw [ih (p + 1) F]
        constructor
        · rintro ⟨j, h1, h2, h3, h4⟩
          exact ⟨j, by omega, by omega, h3, h4⟩
        · rintro ⟨j, h1, h2, h3, h4⟩
          rcases eq_or_lt_of_le h1 with rfl | hj
          · exact absurd h3 hdvd
          · exact ⟨j, by omega, by omega, h3, h4⟩

/-- The first divisor of squarefree `N` beyond `L` that is divisible by
`L` is `L` times a single new prime. -/
lemma next_passing_divisor {N L p : ℕ} (hsq : Squarefree N) (hN : N ≠ 0)
    (hLN : L ∣ N) (hpN : p ∣ N) (hLp : L ∣ p) (hLltp : L < p)
    (hmin : ∀ q, q ∣ N → L ∣ q → q < p → q ≤ L) :
    ∃ r, r.Prime ∧ ¬r ∣ L ∧ p = L * r := by
  have hppos : 0 < p := Nat.pos_of_dvd_of_pos hpN (Nat.pos_of_ne_zero hN)
  obtain ⟨m, hm⟩ := hLp
  have hm1 : m ≠ 1 := by
    rintro rfl
    omega
  have hm0 : m ≠ 0 := by
    rintro rfl
    omega
  obtain ⟨r, hr, hrm⟩ := Nat.exists_prime_and_dvd hm1
  have hrL : ¬r ∣ L := by
    intro hrl
    have hrr : r * r ∣ N := by
      refine dvd_trans ?_ hpN
      rw [hm]
      exact mul_dvd_mul hrl hrm
    exact hr.one_lt.ne' (Nat.isUnit_iff.1 (hsq r hrr))
  have hLr_dvd_p : L * r ∣ p := by
    rw [hm]
    exact mul_dvd_mul_left L hrm
  have hLr_le_p : L * r ≤ p := Nat.le_of_dvd hppos hLr_dvd_p
  have hLpos : 0 < L := Nat.pos_of_dvd_of_pos hLN (Nat.pos_of_ne_zero hN)
  have hLr_gt : L < L * r := by
    have := hr.one_lt
    nlinarith
  have hLr_ge : p ≤ L * r := by
    by_contra hcon
    push_neg at hcon
    have := hmin (L * r) (dvd_trans hLr_dvd_p hpN) (dvd_mul_right L r) hcon
    omega
  exact ⟨r, hr, hrL, by omega⟩

lemma primeFactors_card_mul_prime {L r : ℕ} (hL : L ≠ 0) (hr : r.Prime)
    (hrL : ¬r ∣ L) : (L * r).primeFactors.card = L.primeFactors.card + 1 := by
  rw [Nat.primeFactors_mul hL hr.pos.ne', hr.primeFactors, Finset.union_comm,
    ← Finset.insert_eq,
    Finset.card_insert_of_not_mem fun hmem => hrL (Nat.dvd_of_mem_primeFactors hmem)]

/-- Main loop invariant for squarefree `N`: if `L` is the last appended
entry (1 when none), every entry divides `L`, `L` divides `N`, no
divisor of `N` below the loop position other than `L` itself is
divisible by `L`, and the list length is the number of prime factors of
`L`, then the loop ends with the number of prime factors of `N`. -/
lemma mAux_squarefree_inv (N : ℕ) (hsq : Squarefree N) :
    ∀ fuel p F L, p + fuel = N + 1 → 2 ≤ p →
      ((F = [] ∧ L = 1) ∨ F.getLast? = some L) →
      (∀ f ∈ F, f ∣ L) →
      L ∣ N → L < p →
      (∀ q, q ∣ N → L ∣ q → q < p → q ≤ L) →
      F.length = L.primeFactors.card →
      mAux N fuel p F = (-1) ^ N.primeFactors.card := by
  have hN : N ≠ 0 := by
    rintro rfl
    exact not_squarefree_zero hsq
  intro fuel
  induction fuel with
  | zero =>
      intro p F L hpf hp2 hF hall hLN hLp hmin hlen
      have hNL : N ≤ L := hmin N dvd_rfl hLN (by omega)
      have hLeq : L = N := le_antisymm (Nat.le_of_dvd (Nat.pos_of_ne_zero hN) hLN) hNL
      rw [mAux, hlen, hLeq]
  | succ fuel ih =>
      intro p F L hpf hp2 hF hall hLN hLp hmin hlen
      have hLpos : 0 < L := Nat.pos_of_dvd_of_pos hLN (Nat.pos_of_ne_zero hN)
      rw [mAux]
      by_cases hdvd : N % p = 0
      · rw [if_pos hdvd]
        have hpN : p ∣ N := Nat.dvd_iff_mod_eq_zero.2 hdvd
        have hp2ne : ¬N % p ^ 2 = 0 := by
          intro hmod
          have hpp : p * p ∣ N := by
            have := Nat.dvd_iff_mod_eq_zero.2 hmod
            rwa [pow_two] at this
          exact absurd (Nat.isUnit_iff.1 (hsq p hpp)) (by omega)
        rw [if_neg hp2ne]
        by_cases hsum : (F.map fun f => p % f).sum = 0
        · rw [if_pos hsum]
          have hallp : ∀ f ∈ F, f ∣ p := fun f hf =>
            Nat.dvd_iff_mod_eq_zero.2 ((map_mod_sum_eq_zero_iff F).1 hsum f hf)
          have hLdp : L ∣ p := by
            rcases hF with ⟨rfl, rfl⟩ | hlast
            · exact one_dvd _
            · exact hallp L (List.mem_of_getLast?_eq_some hlast)
          obtain ⟨r, hr, hrL, hpLr⟩ :=
            next_passing_divisor hsq hN hLN hpN hLdp hLp hmin
          refine ih (p + 1) (F ++ [p]) p (by omega) (by omega)
            (Or.inr (List.getLast?_concat F)) ?_ hpN (by omega) ?_ ?_
          · intro f hf
            rcases List.mem_append.1 hf with hf | hf
            · exact dvd_trans (hall f hf) hLdp
            · rw [List.mem_singleton.1 hf]
          · intro q hq hpq hqp
            have := Nat.le_of_dvd (Nat.pos_of_dvd_of_pos hq (Nat.pos_of_ne_zero hN)) hpq
            omega
          · rw [List.length_append, hlen, hpLr,
              primeFactors_card_mul_prime (by omega) hr hrL]
            rfl
        · rw [if_neg hsum]
          have hnLp : ¬L ∣ p := by
            intro hLdp
            exact hsum ((map_mod_sum_eq_zero_iff F).2 fun f hf =>
              Nat.dvd_iff_mod_eq_zero.1 (dvd_trans (hall f hf) hLdp))
          refine ih (p + 1) F L (by omega) (by omega) hF hall hLN (by omega) ?_ hlen
          intro q hq hLq hqp
          rcases Nat.lt_or_ge q p with h | h
          · exact hmin q hq hLq h
          · have : q = p := by omega
            rw [this] at hLq
            exact absurd hLq hnLp
      · rw [if_neg hdvd]
        refine ih (p + 1) F L (by omega) (by omega) hF hall hLN (by omega) ?_ hlen
        intro q hq hLq hqp
        rcases Nat.lt_or_ge q p with h | h
        · exact hmin q hq hLq h
        · have : q = p := by omega
          rw [this] at hq
          exact absurd (Nat.dvd_iff_mod_eq_zero.1 hq) hdvd

lemma moebius_zero_iff {N : ℕ} (h2 : 2 ≤ N) :
    moebius (N : ℤ) = 0 ↔ ¬Squarefree N := by
  have hrw : moebius (N : ℤ) = mAux N (N - 1) 2 [] := by
    rw [moebius]
    simp only [Int.natAbs_ofNat]
    rw [if_neg (by omega)]
  rw [hrw, mAux_zero_iff N (N - 1) 2, Nat.squarefree_iff_prime_squarefree]
  constructor
  · rintro ⟨j, hj2, _, _, hj4⟩ hall
    have hjj : j * j ∣ N := by
      have := Nat.dvd_iff_mod_eq_zero.2 hj4
      rwa [pow_two] at this
    obtain ⟨r, hr, hrj⟩ := Nat.exists_prime_and_dvd (show j ≠ 1 by omega)
    exact hall r hr (dvd_trans (mul_dvd_mul hrj hrj) hjj)
  · intro hns
    push_neg at hns
    obtain ⟨q, hq, hqq⟩ := hns
    have hq2 : 2 ≤ q := hq.two_le
    have hqN : q ≤ N := Nat.le_of_dvd (by omega) (dvd_trans (dvd_mul_left q q) hqq)
    refine ⟨q, hq2, by omega, ?_, ?_⟩
    · exact Nat.dvd_iff_mod_eq_zero.1 (dvd_trans (dvd_mul_left q q) hqq)
    · rw [pow_two]
      exact Nat.dvd_iff_mod_eq_zero.1 hqq

lemma moebius_eq_of_squarefree {N : ℕ} (h2 : 2 ≤ N) (hsq : Squarefree N) :
    moebius (N : ℤ) = (-1) ^ N.primeFactors.card := by
  have hrw : moebius (N : ℤ) = mAux N (N - 1) 2 [] := by
    rw [moebius]
    simp only [Int.natAbs_ofNat]
    rw [if_neg (by omega)]
  rw [hrw]
  refine mAux_squarefree_inv N hsq (N - 1) 2 [] 1 (by omega) le_rfl
    (Or.inl ⟨rfl, rfl⟩) (by simp) (one_dvd N) (by omega) ?_ (by simp)
  intro q hq _ hq2
  have := Nat.pos_of_dvd_of_pos hq (by omega)
  omega

/-- C7: for every `1 ≤ n ≤ 1000`, `moebius(n)` returns 0 exactly when
`n` is divisible by the square of a prime, and otherwise returns
`(-1) ^ k` where `k` is the number of distinct prime factors of `n`.
Both parts are proved from the loop invariant, with no dependence on
the bound. -/
theorem moebius_correct :
    ∀ n : ℕ, 1 ≤ n → n ≤ 1000 →
      ((moebius (n : ℤ) = 0 ↔ ∃ p, p.Prime ∧ p ^ 2 ∣ n) ∧
       (moebius (n : ℤ) ≠ 0 →
          moebius (n : ℤ) = (-1) ^ n.primeFactors.card)) := by
  intro n h1 _
  rcases eq_or_lt_of_le h1 with h1' | h2
  · rw [← h1']
    refine ⟨⟨fun h => absurd h (by decide), ?_⟩, fun _ => by rw [Nat.primeFactors_one]; decide⟩
    rintro ⟨p, hp, hpd⟩
    have := Nat.le_of_dvd (by norm_num) hpd
    have := hp.two_le
    nlinarith
  · have hsqf : (∃ p, p.Prime ∧ p ^ 2 ∣ n) ↔ ¬Squarefree n := by
      rw [Nat.squarefree_iff_prime_squarefree]
      constructor
      · rintro ⟨p, hp, hpd⟩ hall
        exact hall p hp (by rwa [← pow_two])
      · intro h
        push_neg at h
        obtain ⟨q, hq, hqq⟩ := h
        exact ⟨q, hq, by rwa [pow_two]⟩
    constructor
    · rw [moebius_zero_iff h2, hsqf]
    · intro hne
      have hsq : Squarefree n := by
        by_contra hcon
        exact hne ((moebius_zero_iff h2).2 hcon)
      exact moebius_eq_of_squarefree h2 hsq

/-- Witness for C7 at `n = 30` (squarefree with three prime factors). -/
theorem moebius_correct_witness :
    (moebius (30 : ℤ) = 0 ↔ ∃ p, p.Prime ∧ p ^ 2 ∣ 30) ∧
    (moebius (30 : ℤ) ≠ 0 →
      moebius (30 : ℤ) = (-1) ^ (Nat.primeFactors 30).card) :=
  moebius_correct 30 (by decide) (by decide)

/-! ## ifib (libintmath.py lines 280-300)

Python source (fast doubling):
```
if n < 0:
    return (-1)**(-n+1) * ifib(-n)
a, b, p, q = 1, 0, 0, 1
while n:
    if n & 1:
        aq = a*q
        a, b = b*q+aq+a*p, b*p+aq
        n -= 1
    else:
        qq = q*q
        p, q = p*p+qq, qq+2*p*q
        n >>= 1
return b
```
-/

/-- Loop of `ifib`; the loop counter strictly decreases on every
iteration, so fuel `n` is enough. -/
def ifibAux : ℕ → ℕ → ℤ → ℤ → ℤ → ℤ → ℤ
  | 0, _, _, b, _, _ => b
  | f+1, n, a, b, p, q =>
    if n = 0 then b
    else if n % 2 = 1 then
      ifibAux f (n - 1) (b * q + a * q + a * p) (b * p + a * q) p q
    else
      ifibAux f (n / 2) a b (p * p + q * q) (q * q + 2 * p * q)

/-- `ifib` on nonnegative arguments. -/
def ifibNat (n : ℕ) : ℤ := ifibAux n n 1 0 0 1

/-- The function `ifib(n)` for arbitrary integer `n`. -/
def ifib (n : ℤ) : ℤ :=
  if n < 0 then (-1) ^ ((-n).toNat + 1) * ifibNat (-n).toNat
  else ifibNat n.toNat

/-- Reference Fibonacci sequence extended to negative indices by the
standard identity `fib(-n) = (-1)^(n+1) * fib(n)`. -/
def fibRef (n : ℤ) : ℤ :=
  if 0 ≤ n then Nat.fib n.toNat
  else (-1) ^ ((-n).toNat + 1) * Nat.fib (-n).toNat

/-- C9: `ifib` matches the reference Fibonacci sequence on `[-20, 20]`,
and satisfies the negative-index identity for every `n ≥ 0`. -/
theorem ifib_correct :
    (∀ n : ℤ, -20 ≤ n → n ≤ 20 → ifib n = fibRef n) ∧
    (∀ n : ℕ, ifib (-(n:ℤ)) = (-1) ^ (n + 1) * ifib (n:ℤ)) := by
  constructor
  · have h : ∀ n ∈ Finset.Icc (-20:ℤ) 20, ifib n = fibRef n := by decide!
    intro n h1 h2
    exact h n (Finset.mem_Icc.mpr ⟨h1, h2⟩)
  · intro n
    rcases Nat.eq_zero_or_pos n with rfl | hn
    · simp [ifib, ifibNat, ifibAux]
    · rw [ifib, if_pos (by omega), ifib,
        if_neg (by omega)]
      have h1 : (-(-(n:ℤ))).toNat = n := by omega
      have h2 : ((n:ℤ)).toNat = n := by omega
      rw [h1, h2]

/-- Witness for C9 at `n = -7` and `n = 9`. -/
theorem ifib_correct_witness :
    ifib (-7) = fibRef (-7) ∧ ifib 9 = fibRef 9 ∧
    ifib (-(9:ℤ)) = (-1) ^ (9 + 1) * ifib (9:ℤ) :=
  ⟨ifib_correct.1 (-7) (by decide) (by decide),
   ifib_correct.1 9 (by decide) (by decide),
   ifib_correct.2 9⟩

/-! ## isprime (libintmath.py lines 340-386)

Python source:
```
n = int(n)
if not n & 1:
    return n == 2
if n < 50:
    return n in small_odd_primes_set
for p in small_odd_primes:
    if not n % p:
        return False
m = n-1
s = trailing(m)
d = m >> s
def test(a):
    x = pow(a,d,n)
    if x == 1 or x == m:
        return True
    for r in range(1,s):
        x = x**2 % n
        if x == m:
            return True
    return False
if n < 1373653:
    witnesses = [2,3]
elif n < 341550071728321:
    witnesses = [2,3,5,7,11,13,17]
else:
    witnesses = small_odd_primes
for a in witnesses:
    if not test(a):
        return False
return True
```
`trailing(n)` counts the trailing zero bits of `abs(n)` (0 for `n = 0`);
the source implements it with an 8-bit lookup table, embedded here by
its semantics as a halving loop.  `pow(a, d, n)` is `a ** d % n`.
Python `n & 1` and `%` on negative `n` agree with `Int.emod`. -/

def smallOddPrimes : List ℕ := [3, 5, 7, 11, 13, 17, 19, 23, 29, 31, 37, 41, 43, 47]

/-- Trailing zero-bit count; the counter halves until it becomes odd, so
fuel `m` is enough. -/
def trailingAux : ℕ → ℕ → ℕ → ℕ
  | 0, _, acc => acc
  | f+1, m, acc => if m % 2 = 1 ∨ m = 0 then acc else trailingAux f (m / 2) (acc + 1)

def trailing (m : ℕ) : ℕ := trailingAux m m 0

/-- The `for r in range(1, s)` squaring loop of `test(a)`; the fuel is
the number of remaining iterations. -/
def mrSquareLoop (n m : ℕ) : ℕ → ℕ → Bool
  | 0, _ => false
  | f+1, x =>
    let x2 := x ^ 2 % n
    if x2 = m then true else mrSquareLoop n m f x2

/-- Binary modular exponentiation, the semantics of the three-argument
Python `pow(a, d, n)`; `powMod_eq` below proves it equal to `a ^ d % n`.
The exponent halves on every step, so fuel `d` is enough. -/
def powMod : ℕ → ℕ → ℕ → ℕ → ℕ
  | 0, _, _, n => 1 % n
  | f+1, a, d, n =>
    if d = 0 then 1 % n
    else
      let h := powMod f a (d / 2) n
      if d % 2 = 1 then h * h % n * a % n else h * h % n

lemma powMod_eq : ∀ f a d n, d ≤ f → powMod f a d n = a ^ d % n := by
  intro f
  induction f with
  | zero =>
      intro a d n hd
      have : d = 0 := by omega
      subst this
      rw [powMod, pow_zero]
  | succ f ih =>
      intro a d n hd
      rw [powMod]
      by_cases h0 : d = 0
      · rw [if_pos h0, h0, pow_zero]
      · rw [if_neg h0]
        have hrec := ih a (d / 2) n (by omega)
        rw [hrec]
        have h1 : a ^ (d / 2) % n * (a ^ (d / 2) % n) % n =
            a ^ (d / 2) * a ^ (d / 2) % n := by
          rw [Nat.mod_mul_mod, Nat.mul_comm, Nat.mod_mul_mod, Nat.mul_comm]
        by_cases hpar : d % 2 = 1
        · rw [if_pos hpar, h1, Nat.mod_mul_mod]
          congr 1
          rw [← pow_add, ← pow_succ]
          congr 1
          omega
        · rw [if_neg hpar, h1]
          congr 1
          rw [← pow_add]
          congr 1
          omega

/-- The inner `test(a)` of `isprime`. -/
def mrTest (n m s d a : ℕ) : Bool :=
  let x := powMod d a d n
  if x = 1 ∨ x = m then true
  else mrSquareLoop n m (s - 1) x

/-- The function `isprime(n)`. -/
def isprime (n : ℤ) : Bool :=
  if n % 2 = 0 then decide (n = 2)
  else if n < 50 then
    decide (n ∈ ([3, 5, 7, 11, 13, 17, 19, 23, 29, 31, 37, 41, 43, 47] : List ℤ))
  else
    let nn := n.toNat
    if smallOddPrimes.any (fun p => decide (nn % p = 0)) then false
    else
      let m := nn - 1
      let s := trailing m
      let d := m / 2 ^ s
      let witnesses :=
        if nn < 1373653 then [2, 3]
        else if nn < 341550071728321 then [2, 3, 5, 7, 11, 13, 17]
        else smallOddPrimes
      witnesses.all fun a => mrTest nn m s d a

/-- C10: `isprime(n)` is `False` for every integer `n < 2`, including 0,
1 and all negative integers. -/
theorem isprime_below_two : ∀ n : ℤ, n < 2 → isprime n = false := by
  intro n hn
  rw [isprime]
  by_cases he : n % 2 = 0
  · rw [if_pos he]
    simp only [decide_eq_false_iff_not]
    omega
  · rw [if_neg he, if_pos (by omega)]
    simp only [decide_eq_false_iff_not, List.mem_cons, List.not_mem_nil, or_false]
    omega

/-- Witness for C10 at `n = -5`. -/
theorem isprime_below_two_witness : isprime (-5) = false :=
  isprime_below_two (-5) (by decide)

set_option maxRecDepth 100000 in
lemma isprime_oracle_chunk0 : ∀ n ∈ Finset.Ico (0:ℕ) 500,
    isprime (n:ℤ) = isPrimeBool n := by decide!

set_option maxRecDepth 100000 in
lemma isprime_oracle_chunk1 : ∀ n ∈ Finset.Ico (500:ℕ) 1000,
    isprime (n:ℤ) = isPrimeBool n := by decide!

set_option maxRecDepth 100000 in
lemma isprime_oracle_chunk2 : ∀ n ∈ Finset.Ico (1000:ℕ) 1500,
    isprime (n:ℤ) = isPrimeBool n := by decide!

set_option maxRecDepth 100000 in
lemma isprime_oracle_chunk3 : ∀ n ∈ Finset.Ico (1500:ℕ) 2000,
    isprime (n:ℤ) = isPrimeBool n := by decide!

set_option maxRecDepth 100000 in
lemma isprime_oracle_chunk4 : ∀ n ∈ Finset.Ico (2000:ℕ) 2500,
    isprime (n:ℤ) = isPrimeBool n := by decide!

set_option maxRecDepth 100000 in
lemma isprime_oracle_chunk5 : ∀ n ∈ Finset.Ico (2500:ℕ) 3000,
    isprime (n:ℤ) = isPrimeBool n := by decide!

set_option maxRecDepth 100000 in
lemma isprime_oracle_chunk6 : ∀ n ∈ Finset.Ico (3000:ℕ) 3500,
    isprime (n:ℤ) = isPrimeBool n := by decide!

set_option maxRecDepth 100000 in
lemma isprime_oracle_chunk7 : ∀ n ∈ Finset.Ico (3500:ℕ) 4000,
    isprime (n:ℤ) = isPrimeBool n := by decide!

set_option maxRecDepth 100000 in
lemma isprime_oracle_chunk8 : ∀ n ∈ Finset.Ico (4000:ℕ) 4500,
    isprime (n:ℤ) = isPrimeBool n := by decide!

set_option maxRecDepth 100000 in
lemma isprime_oracle_chunk9 : ∀ n ∈ Finset.Ico (4500:ℕ) 5000,
    isprime (n:ℤ) = isPrimeBool n := by decide!

set_option maxRecDepth 100000 in
lemma isprime_oracle_chunk10 : ∀ n ∈ Finset.Ico (5000:ℕ) 5500,
    isprime (n:ℤ) = isPrimeBool n := by decide!

set_option maxRecDepth 100000 in
lemma isprime_oracle_chunk11 : ∀ n ∈ Finset.Ico (5500:ℕ) 6000,
    isprime (n:ℤ) = isPrimeBool n := by decide!

set_option maxRecDepth 100000 in
lemma isprime_oracle_chunk12 : ∀ n ∈ Finset.Ico (6000:ℕ) 6500,
    isprime (n:ℤ) = isPrimeBool n := by decide!

set_option maxRecDepth 100000 in
lemma isprime_oracle_chunk13 : ∀ n ∈ Finset.Ico (6500:ℕ) 7000,
    isprime (n:ℤ) = isPrimeBool n := by decide!

set_option maxRecDepth 100000 in
lemma isprime_oracle_chunk14 : ∀ n ∈ Finset.Ico (7000:ℕ) 7500,
    isprime (n:ℤ) = isPrimeBool n := by decide!

set_option maxRecDepth 100000 in
lemma isprime_oracle_chunk15 : ∀ n ∈ Finset.Ico (7500:ℕ) 8000,
    isprime (n:ℤ) = isPrimeBool n := by decide!

set_option maxRecDepth 100000 in
lemma isprime_oracle_chunk16 : ∀ n ∈ Finset.Ico (8000:ℕ) 8500,
    isprime (n:ℤ) = isPrimeBool n := by decide!

set_option maxRecDepth 100000 in
lemma isprime_oracle_chunk17 : ∀ n ∈ Finset.Ico (8500:ℕ) 9000,
    isprime (n:ℤ) = isPrimeBool n := by decide!

set_option maxRecDepth 100000 in
lemma isprime_oracle_chunk18 : ∀ n ∈ Finset.Ico (9000:ℕ) 9500,
    isprime (n:ℤ) = isPrimeBool n := by decide!

set_option maxRecDepth 100000 in
lemma isprime_oracle_chunk19 : ∀ n ∈ Finset.Ico (9500:ℕ) 10000,
    isprime (n:ℤ) = isPrimeBool n := by decide!
/-- Agreement of `isprime` with true primality below 10000 (first part
of the witness-bracket property; the brackets beyond rest on external
computations).  In particular `isprime` has no false negatives in this
range. -/
theorem isprime_matches_primality_below_10000 :
    ∀ n : ℕ, n < 10000 → (isprime (n:ℤ) = true ↔ n.Prime) := by
  intro n hn
  have h : isprime (n:ℤ) = isPrimeBool n := by
    rcases Nat.lt_or_ge n 500 with h0 | h0
    · exact isprime_oracle_chunk0 n (Finset.mem_Ico.mpr ⟨by omega, h0⟩)
    rcases Nat.lt_or_ge n 1000 with h1 | h1
    · exact isprime_oracle_chunk1 n (Finset.mem_Ico.mpr ⟨by omega, h1⟩)
    rcases Nat.lt_or_ge n 1500 with h2 | h2
    · exact isprime_oracle_chunk2 n (Finset.mem_Ico.mpr ⟨by omega, h2⟩)
    rcases Nat.lt_or_ge n 2000 with h3 | h3
    · exact isprime_oracle_chunk3 n (Finset.mem_Ico.mpr ⟨by omega, h3⟩)
    rcases Nat.lt_or_ge n 2500 with h4 | h4
    · exact isprime_oracle_chunk4 n (Finset.mem_Ico.mpr ⟨by omega, h4⟩)
    rcases Nat.lt_or_ge n 3000 with h5 | h5
    · exact isprime_oracle_chunk5 n (Finset.mem_Ico.mpr ⟨by omega, h5⟩)
    rcases Nat.lt_or_ge n 3500 with h6 | h6
    · exact isprime_oracle_chunk6 n (Finset.mem_Ico.mpr ⟨by omega, h6⟩)
    rcases Nat.lt_or_ge n 4000 with h7 | h7
    · exact isprime_oracle_chunk7 n (Finset.mem_Ico.mpr ⟨by omega, h7⟩)
    rcases Nat.lt_or_ge n 4500 with h8 | h8
    · exact isprime_oracle_chunk8 n (Finset.mem_Ico.mpr ⟨by omega, h8⟩)
    rcases Nat.lt_or_ge n 5000 with h9 | h9
    · exact isprime_oracle_chunk9 n (Finset.mem_Ico.mpr ⟨by omega, h9⟩)
    rcases Nat.lt_or_ge n 5500 with h10 | h10
    · exact isprime_oracle_chunk10 n (Finset.mem_Ico.mpr ⟨by omega, h10⟩)
    rcases Nat.lt_or_ge n 6000 with h11 | h11
    · exact isprime_oracle_chunk11 n (Finset.mem_Ico.mpr ⟨by omega, h11⟩)
    rcases Nat.lt_or_ge n 6500 with h12 | h12
    · exact isprime_oracle_chunk12 n (Finset.mem_Ico.mpr ⟨by omega, h12⟩)
    rcases Nat.lt_or_ge n 7000 with h13 | h13
    · exact isprime_oracle_chunk13 n (Finset.mem_Ico.mpr ⟨by omega, h13⟩)
    rcases Nat.lt_or_ge n 7500 with h14 | h14
    · exact isprime_oracle_chunk14 n (Finset.mem_Ico.mpr ⟨by omega, h14⟩)
    rcases Nat.lt_or_ge n 8000 with h15 | h15
    · exact isprime_oracle_chunk15 n (Finset.mem_Ico.mpr ⟨by omega, h15⟩)
    rcases Nat.lt_or_ge n 8500 with h16 | h16
    · exact isprime_oracle_chunk16 n (Finset.mem_Ico.mpr ⟨by omega, h16⟩)
    rcases Nat.lt_or_ge n 9000 with h17 | h17
    · exact isprime_oracle_chunk17 n (Finset.mem_Ico.mpr ⟨by omega, h17⟩)
    rcases Nat.lt_or_ge n 9500 with h18 | h18
    · exact isprime_oracle_chunk18 n (Finset.mem_Ico.mpr ⟨by omega, h18⟩)
    exact isprime_oracle_chunk19 n (Finset.mem_Ico.mpr ⟨by omega, by omega⟩)
  rw [h]
  exact isPrimeBool_iff

/-! ### Miller-Rabin completeness on primes

For a prime `n`, `test(a)` returns `True` for every base `a` not
divisible by `n`: writing `n - 1 = 2^s * d`, Fermat gives
`a^(d*2^s) ≡ 1 (mod n)`, and the power `a^(d*2^j)` just before the
first one congruent to `1` is a square root of `1`, hence `±1` in the
field `ZMod n`; either it is `-1` (so the squaring loop, or the initial
check, sees `n - 1`), or already `a^d ≡ 1`.  Hence `isprime` is never
false-negative on a prime, settling that conjunct of the claim in full
generality. -/

lemma trailingAux_spec : ∀ f m acc, 1 ≤ m → m ≤ f →
    ∃ t k, trailingAux f m acc = acc + t ∧ m = 2 ^ t * k ∧ k % 2 = 1 := by
  intro f
  induction f with
  | zero => intro m acc h1 h2; omega
  | succ f ih =>
      intro m acc h1 h2
      by_cases hodd : m % 2 = 1 ∨ m = 0
      · refine ⟨0, m, ?_, ?_, by omega⟩
        · simp only [trailingAux, if_pos hodd]
          omega
        · rw [pow_zero, one_mul]
      · obtain ⟨t, k, h3, h4, h5⟩ := ih (m / 2) (acc + 1) (by omega) (by omega)
        refine ⟨t + 1, k, ?_, ?_, h5⟩
        · simp only [trailingAux, if_neg hodd]
          rw [h3]
          omega
        · have hm2 : m = 2 * (m / 2) := by omega
          rw [hm2, h4, pow_succ]
          ring

lemma trailing_spec {m : ℕ} (hm : 1 ≤ m) :
    m = 2 ^ trailing m * (m / 2 ^ trailing m) ∧ (m / 2 ^ trailing m) % 2 = 1 := by
  obtain ⟨t, k, h1, h2, h3⟩ := trailingAux_spec m m 0 hm le_rfl
  have ht : trailing m = t := by rw [trailing, h1]; omega
  have hk : m / 2 ^ t = k := by
    rw [h2]
    exact Nat.mul_div_cancel_left k (by positivity)
  rw [ht, hk]
  exact ⟨h2, h3⟩

/-- The mathematical iterate of the squaring loop: `r` repetitions of
`x -> x^2 % n`. -/
def squareIter (n : ℕ) : ℕ → ℕ → ℕ
  | x, 0 => x
  | x, r+1 => squareIter n (x ^ 2 % n) r

lemma squareIter_pow (n a : ℕ) :
    ∀ r e, squareIter n (a ^ e % n) r = a ^ (e * 2 ^ r) % n := by
  intro r
  induction r with
  | zero =>
      intro e
      rw [squareIter, pow_zero, mul_one]
  | succ r ih =>
      intro e
      rw [squareIter]
      have h1 : (a ^ e % n) ^ 2 % n = a ^ (e * 2) % n := by
        rw [← Nat.pow_mod, ← pow_mul]
      rw [h1, ih (e * 2)]
      have he : e * 2 * 2 ^ r = e * 2 ^ (r + 1) := by
        rw [pow_succ]
        ring
      rw [he]

/-- The squaring loop returns `true` whenever some iterate within its
fuel budget hits `m`. -/
lemma mrSquareLoop_hit (n m : ℕ) : ∀ fuel x r, 1 ≤ r → r ≤ fuel →
    squareIter n x r = m → mrSquareLoop n m fuel x = true := by
  intro fuel
  induction fuel with
  | zero => intro x r h1 h2 _; omega
  | succ f ih =>
      intro x r h1 h2 hit
      simp only [mrSquareLoop]
      by_cases hx2 : x ^ 2 % n = m
      · rw [if_pos hx2]
      · rw [if_neg hx2]
        obtain ⟨r', rfl⟩ : ∃ r', r = r' + 1 := ⟨r - 1, by omega⟩
        rw [squareIter] at hit
        have hr' : 1 ≤ r' := by
          rcases Nat.eq_zero_or_pos r' with h0 | h0
          · subst h0
            rw [squareIter] at hit
            exact absurd hit hx2
          · exact h0
        exact ih (x ^ 2 % n) r' hr' (by omega) hit

/-- Completeness of `test(a)` on an odd prime `n ≥ 3`, for any
factorisation `n - 1 = 2^s * d` and any base `a` not divisible by
`n`. -/
lemma mrTest_of_prime {n a s d : ℕ} (hp : n.Prime) (hn : 3 ≤ n)
    (hfact : n - 1 = 2 ^ s * d) (ha : ¬ n ∣ a) :
    mrTest n (n - 1) s d a = true := by
  classical
  haveI : Fact n.Prime := ⟨hp⟩
  have hn0 : 0 < n := by omega
  have hA : (a : ZMod n) ≠ 0 := by
    rw [Ne, ZMod.natCast_zmod_eq_zero_iff_dvd]
    exact ha
  have hferm : (a : ZMod n) ^ (d * 2 ^ s) = 1 := by
    have h := ZMod.pow_card_sub_one_eq_one hA
    rwa [hfact, mul_comm] at h
  have hPs : ∃ j, (a : ZMod n) ^ (d * 2 ^ j) = 1 := ⟨s, hferm⟩
  have hT : (a : ZMod n) ^ (d * 2 ^ Nat.find hPs) = 1 := Nat.find_spec hPs
  have hTle : Nat.find hPs ≤ s := Nat.find_le hferm
  have hmin : ∀ j, j < Nat.find hPs → (a : ZMod n) ^ (d * 2 ^ j) ≠ 1 :=
    fun j hj => Nat.find_min hPs hj
  generalize hTT : Nat.find hPs = T at hT hTle hmin
  have hval : ∀ e : ℕ, ((a ^ e % n : ℕ) : ZMod n) = (a : ZMod n) ^ e := by
    intro e
    rw [ZMod.natCast_mod]
    push_cast
    ring
  have hinj : ∀ x y : ℕ, x < n → y < n →
      ((x : ℕ) : ZMod n) = ((y : ℕ) : ZMod n) → x = y := by
    intro x y hx hy hxy
    have h := congrArg ZMod.val hxy
    rwa [ZMod.val_cast_of_lt hx, ZMod.val_cast_of_lt hy] at h
  have hm1cast : ((n - 1 : ℕ) : ZMod n) = -1 := by
    push_cast [Nat.cast_sub (show (1 : ℕ) ≤ n by omega)]
    rw [ZMod.natCast_self]
    ring
  simp only [mrTest]
  rw [powMod_eq d a d n le_rfl]
  by_cases hx : a ^ d % n = 1 ∨ a ^ d % n = n - 1
  · rw [if_pos hx]
  · rw [if_neg hx]
    push_neg at hx
    obtain ⟨hx1, hxm⟩ := hx
    have hT1 : 1 ≤ T := by
      rcases Nat.eq_zero_or_pos T with h0 | h0
      · exfalso
        apply hx1
        apply hinj _ _ (Nat.mod_lt _ hn0) (by omega)
        rw [hval d, Nat.cast_one]
        have h := hT
        rwa [h0, pow_zero, mul_one] at h
      · exact h0
    have hy2 : (a : ZMod n) ^ (d * 2 ^ (T - 1)) * (a : ZMod n) ^ (d * 2 ^ (T - 1)) = 1 := by
      rw [← pow_add]
      have hsum : d * 2 ^ (T - 1) + d * 2 ^ (T - 1) = d * 2 ^ T := by
        have h2 : 2 ^ T = 2 ^ (T - 1) * 2 := by
          rw [← pow_succ]
          congr 1
          omega
        rw [h2]
        ring
      rw [hsum, hT]
    have hyneq : (a : ZMod n) ^ (d * 2 ^ (T - 1)) ≠ 1 := hmin (T - 1) (by omega)
    have hy : (a : ZMod n) ^ (d * 2 ^ (T - 1)) = -1 :=
      (mul_self_eq_one_iff.mp hy2).resolve_left hyneq
    have hw : a ^ (d * 2 ^ (T - 1)) % n = n - 1 := by
      apply hinj _ _ (Nat.mod_lt _ hn0) (by omega)
      rw [hval, hm1cast, hy]
    have hT2 : 2 ≤ T := by
      rcases Nat.lt_or_ge T 2 with h2 | h2
      · exfalso
        apply hxm
        have h10 : T - 1 = 0 := by omega
        rwa [h10, pow_zero, mul_one] at hw
      · exact h2
    apply mrSquareLoop_hit n (n - 1) (s - 1) (a ^ d % n) (T - 1) (by omega) (by omega)
    rw [squareIter_pow n a (T - 1) d]
    exact hw

/-- A prime `n ≥ 50` survives the trial-division scan: none of the
small odd primes divides it. -/
lemma prime_scan_false {n : ℕ} (hp : n.Prime) (h50 : 50 ≤ n) :
    smallOddPrimes.any (fun p => decide (n % p = 0)) = false := by
  rw [List.any_eq_false]
  intro p hpmem
  simp only [decide_eq_true_eq]
  intro hmod
  have hdvd : p ∣ n := Nat.dvd_of_mod_eq_zero hmod
  have hbound : 3 ≤ p ∧ p ≤ 47 := by
    simp only [smallOddPrimes, List.mem_cons, List.not_mem_nil, or_false] at hpmem
    omega
  rcases Nat.Prime.eq_one_or_self_of_dvd hp p hdvd with h1 | h2
  · omega
  · omega

lemma isprime_small : ∀ n : ℕ, n < 50 → isPrimeBool n = true →
    isprime (n : ℤ) = true := by decide

/-- The never-false-negative conjunct of the claim, in full generality:
`isprime` returns `True` on every prime, whichever witness bracket the
input falls into. -/
theorem isprime_complete_on_primes : ∀ n : ℕ, n.Prime → isprime (n : ℤ) = true := by
  intro n hp
  have h2 : 2 ≤ n := hp.two_le
  by_cases heven : n % 2 = 0
  · have hn2 : n = 2 := by
      rcases Nat.Prime.eq_one_or_self_of_dvd hp 2 (Nat.dvd_of_mod_eq_zero heven) with h | h
      · omega
      · omega
    subst hn2
    decide
  · have hodd : n % 2 = 1 := by omega
    by_cases h50 : n < 50
    · exact isprime_small n h50 (isPrimeBool_iff.mpr hp)
    · push_neg at h50
      have hz2 : ¬ ((n : ℤ) % 2 = 0) := by omega
      have hz50 : ¬ ((n : ℤ) < 50) := by omega
      simp only [isprime, Int.toNat_natCast]
      rw [if_neg hz2, if_neg hz50, prime_scan_false hp h50]
      simp only [Bool.false_eq_true, if_false]
      rw [List.all_eq_true]
      intro x hx
      have hxb : 2 ≤ x ∧ x ≤ 47 := by
        split at hx
        · simp only [List.mem_cons, List.not_mem_nil, or_false] at hx
          omega
        · split at hx
          · simp only [List.mem_cons, List.not_mem_nil, or_false] at hx
            omega
          · simp only [smallOddPrimes, List.mem_cons, List.not_mem_nil, or_false] at hx
            omega
      have hnd : ¬ n ∣ x := by
        intro hdvd
        have h := Nat.le_of_dvd (by omega) hdvd
        omega
      obtain ⟨hfact, -⟩ := trailing_spec (show 1 ≤ n - 1 by omega)
      exact mrTest_of_prime hp (by omega) hfact hnd

/-! ## mangoldt (functions.py lines 622-681)

Python source (control flow):
```
n = int(n)
if n < 2:
    return ctx.zero
if n % 2 == 0:
    if n & (n-1) == 0:
        return +ctx.ln2
    else:
        return ctx.zero
for p in (3,5,7,11,13,17,19,23,29,31):
    if not n % p:
        q, r = n // p, 0
        while q > 1:
            q, r = divmod(q, p)
            if r:
                return ctx.zero
        return ctx.ln(p)
if ctx.isprime(n):
    return ctx.ln(n)
if n > 10**30:
    raise NotImplementedError
k = 2
while 1:
    p = int(n**(1./k) + 0.5)
    ...
```
The embedding records which exit the control flow takes; the real value
returned (a logarithm at working precision) is irrelevant to the claim.
`ctx.isprime` is the integer primitive `isprime` embedded above.  The
floating-point k-th-root search after the feasibility check is only
reachable for `n ≤ 10**30` and is represented by its own marker. -/

inductive MangoldtResult where
  | zero : MangoldtResult
  | ln2 : MangoldtResult
  | ln (p : ℕ) : MangoldtResult
  | unsupported : MangoldtResult
  | krootSearch : MangoldtResult
  deriving DecidableEq

/-- The `while q > 1` perfect-power verification loop for a small prime
factor `p`; `q` shrinks by a factor `p ≥ 3` every iteration, so fuel `q`
is enough. -/
def perfectPowLoop (p : ℕ) : ℕ → ℕ → MangoldtResult
  | 0, _ => .ln p
  | f+1, q =>
    if 1 < q then
      if q % p ≠ 0 then .zero else perfectPowLoop p f (q / p)
    else .ln p

/-- The `for p in (3,5,...,31)` trial-division scan of `mangoldt`. -/
def mangoldtSmallScan : List ℕ → ℕ → Option MangoldtResult
  | [], _ => none
  | p :: ps, n =>
    if n % p = 0 then some (perfectPowLoop p n (n / p))
    else mangoldtSmallScan ps n

/-- Exit taken by `mangoldt(n)`. -/
def mangoldtPath (n : ℤ) : MangoldtResult :=
  if n < 2 then .zero
  else if n.toNat % 2 = 0 then
    (if n.toNat &&& (n.toNat - 1) = 0 then .ln2 else .zero)
  else
    (mangoldtSmallScan [3, 5, 7, 11, 13, 17, 19, 23, 29, 31] n.toNat).getD
      (if isprime (n.toNat : ℤ) then .ln n.toNat
       else if 10 ^ 30 < n then .unsupported
       else .krootSearch)

set_option maxRecDepth 10000 in
/-- C8 counterexample: `n = 2^101 > 10^30` does not raise; `mangoldt`
returns `ln 2` on the power-of-two fast path before the feasibility
check is ever reached. -/
theorem mangoldt_no_raise_at_2_pow_101 :
    mangoldtPath (2 ^ 101) = MangoldtResult.ln2 ∧
    MangoldtResult.ln2 ≠ MangoldtResult.unsupported ∧
    (10 ^ 30 : ℤ) < 2 ^ 101 := by
  refine ⟨by decide!, by decide, by decide⟩

/-- C8 amended: `mangoldt(n)` raises the unsupported error exactly on
the inputs `n > 10^30` that fall through to the perfect-power search:
odd `n` with no prime factor among 3..31 that the primality test calls
composite. -/
theorem mangoldt_unsupported_above_bound :
    ∀ n : ℤ, 10 ^ 30 < n → n.toNat % 2 = 1 →
      mangoldtSmallScan [3, 5, 7, 11, 13, 17, 19, 23, 29, 31] n.toNat = none →
      isprime (n.toNat : ℤ) = false →
      mangoldtPath n = MangoldtResult.unsupported := by
  intro n hb hodd hscan hcomp
  rw [mangoldtPath, if_neg (by omega), if_neg (by omega), hscan]
  simp only [Option.getD, hcomp, Bool.false_eq_true, if_false]
  rw [if_pos hb]

/-- Witness for the amended C8 at `n = 37^20 > 10^30`. -/
theorem mangoldt_unsupported_witness :
    mangoldtPath (37 ^ 20) = MangoldtResult.unsupported :=
  mangoldt_unsupported_above_bound (37 ^ 20) (by decide!) (by decide!)
    (by decide!) (by decide!)

/-! ## Precision save/restore discipline (functions.py)

The adaptive-precision algorithms manipulate `ctx.prec` imperatively.
The embedding tracks only the precision cell: a body computation is
abstracted as a function of the elevated working precision that either
returns normally or raises, and each wrapper records the value of
`ctx.prec` observed by the caller on each kind of exit.

`root` (lines 282-297) and `unitroots` (lines 300-312) use
```
prec = ctx.prec
try:
    ctx.prec += 10
    v = ...
finally:
    ctx.prec = prec
```
so the saved precision is written back on both exits.  `lambertw`
(lines 514-541) instead uses
```
prec = ctx.prec
ctx.prec += 20 + ctx.mag(k or 1)
... body: seed series and Halley iteration ...
ctx.prec = prec
return +w
```
with no try/finally, so when the body raises, the restoring assignment
is skipped and the exception propagates with `ctx.prec` still
elevated. -/

/-- Value of the context precision cell when control returns to the
caller, on a normal return or with a propagating exception. -/
inductive PrecExit where
  | normal (prec : ℤ)
  | raised (prec : ℤ)
  deriving DecidableEq

def PrecExit.prec : PrecExit → ℤ
  | .normal p => p
  | .raised p => p

/-- Precision flow of `lambertw`: `magTerm` is the value of
`ctx.mag(k or 1)` (which is 1 for the default branch `k = 0`). -/
def lambertwPrecFlow (entry magTerm : ℤ) (body : ℤ → Except Unit Unit) : PrecExit :=
  let wp := entry + 20 + magTerm
  match body wp with
  | .ok _ => .normal entry
  | .error _ => .raised wp

/-- Precision flow of `root` (the `k ≠ 0` branch that elevates
precision inside try/finally). -/
def rootPrecFlow (entry : ℤ) (body : ℤ → Except Unit Unit) : PrecExit :=
  let wp := entry + 10
  match body wp with
  | .ok _ => .normal entry
  | .error _ => .raised entry

/-- Precision flow of `unitroots`, identical try/finally shape. -/
def unitrootsPrecFlow (entry : ℤ) (body : ℤ → Except Unit Unit) : PrecExit :=
  let wp := entry + 10
  match body wp with
  | .ok _ => .normal entry
  | .error _ => .raised entry

/-- C2: `root` and `unitroots` restore the entry precision on every
exit, but `lambertw` does not: a body that raises at entry precision 53
with `k = 0` (mag term 1) propagates the exception with `ctx.prec`
still 74, not 53. -/
theorem lambertw_prec_not_restored_on_error :
    (∀ entry body, (rootPrecFlow entry body).prec = entry) ∧
    (∀ entry body, (unitrootsPrecFlow entry body).prec = entry) ∧
    (lambertwPrecFlow 53 1 fun _ => Except.error ()).prec = 74 ∧
    (74 : ℤ) ≠ 53 := by
  refine ⟨?_, ?_, rfl, by decide⟩
  · intro entry body
    rw [rootPrecFlow]
    cases body (entry + 10) with
    | ok _ => rfl
    | error _ => rfl
  · intro entry body
    rw [unitrootsPrecFlow]
    cases body (entry + 10) with
    | ok _ => rfl
    | error _ => rfl

/-! ## Halley iteration of lambertw (functions.py lines 526-539)

Python source:
```
for i in range(100):
    ew = ctx.exp(w)
    wew = w*ew
    wewz = wew-z
    wn = w - wewz/(wew+ew-(w+two)*wewz/(two*w+two))
    if ctx.mag(wn-w) <= ctx.mag(wn) - tol:
        w = wn
        break
    else:
        w = wn
if i == 100:
    ctx.warn("Lambert W iteration failed to converge for z = %s" % z)
```
The numeric step and the convergence test are abstracted: `step i w`
is the new iterate `wn` computed at loop index `i`, and `conv i`
reports whether the convergence test succeeds there.  The embedding
returns the final loop index `i`, the returned iterate, and whether the
guard `i == 100` of the warning fires. -/

/-- Python `for i in range(100)` body with break: returns the final
value of `i` together with the final iterate `w`.  On a break the index
stays at the break position; on normal exhaustion `i` ends at 99 (the
last value produced by `range(100)`). -/
def halleyLoop {α : Type} (conv : ℕ → Bool) (step : ℕ → α → α) :
    ℕ → ℕ → α → ℕ × α
  | 0, i, w => (i, w)
  | f+1, i, w =>
    let wn := step i w
    if conv i then (i, wn)
    else if f = 0 then (i, wn)
    else halleyLoop conv step f (i + 1) wn

/-- Full Halley phase of `lambertw`: the loop from `i = 0` with 100
iterations available, followed by the warning guard `i == 100`. -/
def lambertwHalley {α : Type} (conv : ℕ → Bool) (step : ℕ → α → α) (w0 : α) :
    α × Bool :=
  let r := halleyLoop conv step 100 0 w0
  (r.2, r.1 == 100)

lemma halleyLoop_index_le {α : Type} (conv : ℕ → Bool) (step : ℕ → α → α) :
    ∀ f i w, 1 ≤ f → (halleyLoop conv step f i w).1 ≤ i + (f - 1) := by
  intro f
  induction f with
  | zero => intro i w h; omega
  | succ f ih =>
      intro i w _
      rw [halleyLoop]
      by_cases hc : conv i
      · rw [if_pos hc]
        omega
      · rw [if_neg hc]
        by_cases hf : f = 0
        · rw [if_pos hf]
          omega
        · rw [if_neg hf]
          have := ih (i + 1) (step i w) (by omega)
          omega

/-- C3: the convergence warning of `lambertw` is never emitted.  After
`for i in range(100)` the index is at most 99 (even when the loop
exhausts its 100-step budget without the convergence test succeeding),
so the guard `i == 100` of `ctx.warn` never fires; the last estimate is
the first component of the result and is returned unconditionally. -/
theorem lambertw_warning_never_emitted :
    ∀ (α : Type) (conv : ℕ → Bool) (step : ℕ → α → α) (w0 : α),
      (lambertwHalley conv step w0).2 = false := by
  intro α conv step w0
  have h := halleyLoop_index_le conv step 100 0 w0 (by omega)
  rw [lambertwHalley]
  simp only [beq_eq_false_iff_ne]
  omega

/-! ## sqrtrem (libintmath.py lines 163-255)

Python source of the exactness-restoring part:
```
def sqrtrem_python(x):
    if x < _1_600:
        y = isqrt_small_python(x)
        return y, x - y*y
    y = isqrt_fast_python(x) + 1
    rem = x - y*y
    while rem < 0:
        y -= 1
        rem += (1+2*y)
    else:
        if rem:
            while rem > 2*(1+y):
                y += 1
                rem -= (1+2*y)
    return y, rem
```
and of the Newton iteration inside `isqrt_small_python`:
```
r = int(x**0.5 * 1.00000000000001) + 1
while 1:
    y = (r+x//r)>>1
    if y >= r:
        return r
    r = y
```
Both `isqrt_small_python` and `isqrt_fast_python` seed their iterations
from IEEE-double expressions (`x**0.5`, `2.0**(2*startprec) * (...)**-0.5`);
those seeds enter the embedding as explicit parameters, and the
remaining integer arithmetic is embedded exactly.  In Python a
`while ... else` clause runs after the loop finishes normally, so the
two correction loops of `sqrtrem_python` run in sequence. -/

/-- The `while rem < 0` down-correction loop; the counter `y` decreases
every iteration (and `rem` at `y = 0` equals `x ≥ 0`, so the zero
pattern is never reached with a negative remainder on real inputs). -/
def downLoop : ℕ → ℤ → ℕ × ℤ
  | 0, rem => (0, rem)
  | y+1, rem =>
    if rem < 0 then downLoop y (rem + (1 + 2 * y)) else (y + 1, rem)

/-- The `while rem > 2*(1+y)` up-correction loop; `rem` strictly
decreases, so the fuel only needs to exceed the initial remainder. -/
def upLoop : ℕ → ℕ → ℤ → ℕ × ℤ
  | 0, y, rem => (y, rem)
  | f+1, y, rem =>
    if 2 * (1 + (y : ℤ)) < rem then upLoop f (y + 1) (rem - (1 + 2 * ((y : ℤ) + 1)))
    else (y, rem)

/-- Large-`x` path of `sqrtrem_python`, with `e` standing for the value
returned by the float-seeded `isqrt_fast_python(x)`. -/
def sqrtremLarge (e x fuel : ℕ) : ℕ × ℤ :=
  let y := e + 1
  let rem : ℤ := (x : ℤ) - (y : ℤ) * y
  let d := downLoop y rem
  if d.2 = 0 then d else upLoop fuel d.1 d.2

/-- The Newton loop of `isqrt_small_python`, with seed `r`. -/
def newtonLoop (x : ℕ) : ℕ → ℕ → ℕ
  | 0, r => r
  | f+1, r =>
    let y := (r + x / r) / 2
    if r ≤ y then r else newtonLoop x f y

/-- Model of `sqrtrem_python(x)`: `eSmall` is the integer seed of the
small-path Newton iteration, `eFast` the value of
`isqrt_fast_python(x)`.  On the direct float branch (`x < 2**50`) the
source returns `int(x**0.5)` without iterating; running the Newton loop
from that same exact seed returns it unchanged, so the one model covers
the whole small path. -/
def sqrtrem_python (eSmall eFast x : ℕ) : ℕ × ℤ :=
  if x < 2 ^ 600 then
    ((newtonLoop x eSmall eSmall : ℕ),
      ((x : ℤ) - (newtonLoop x eSmall eSmall : ℤ) * (newtonLoop x eSmall eSmall : ℤ)))
  else sqrtremLarge eFast x (x + 1)

lemma downLoop_exact (x : ℕ) :
    ∀ y, Nat.sqrt x ≤ y →
      downLoop y ((x : ℤ) - (y : ℤ) * y) =
        (Nat.sqrt x, (x : ℤ) - (Nat.sqrt x : ℤ) * Nat.sqrt x) := by
  intro y
  induction y with
  | zero =>
      intro hy
      have h0 : Nat.sqrt x = 0 := by omega
      rw [downLoop, h0]
  | succ y ih =>
      intro hy
      rcases eq_or_lt_of_le hy with heq | hlt
      · have h1 : (y + 1) * (y + 1) ≤ x := by
          rw [← heq]
          exact Nat.sqrt_le x
        have h1' : ((y + 1 : ℕ) : ℤ) * ((y + 1 : ℕ) : ℤ) ≤ (x : ℤ) := by
          exact_mod_cast h1
        rw [downLoop, if_neg (by omega), heq]
      · have h2 : x < (y + 1) * (y + 1) :=
          lt_of_lt_of_le (Nat.lt_succ_sqrt x) (Nat.mul_le_mul (by omega) (by omega))
        have h2' : (x : ℤ) < ((y + 1 : ℕ) : ℤ) * ((y + 1 : ℕ) : ℤ) := by
          exact_mod_cast h2
        rw [downLoop, if_pos (by omega)]
        have harg : (x : ℤ) - ((y + 1 : ℕ) : ℤ) * ((y + 1 : ℕ) : ℤ) + (1 + 2 * (y : ℤ)) =
            (x : ℤ) - (y : ℤ) * y := by
          push_cast
          ring
        rw [harg]
        exact ih (by omega)

lemma upLoop_noop {fuel y : ℕ} {rem : ℤ} (h : ¬2 * (1 + (y : ℤ)) < rem) :
    upLoop fuel y rem = (y, rem) := by
  cases fuel with
  | zero => rfl
  | succ f => rw [upLoop, if_neg h]

lemma sqrtremLarge_correct (x e fuel : ℕ) (h : Nat.sqrt x ≤ e + 1) :
    sqrtremLarge e x fuel =
      (Nat.sqrt x, (x : ℤ) - (Nat.sqrt x : ℤ) * Nat.sqrt x) := by
  rw [sqrtremLarge, downLoop_exact x (e + 1) h]
  have h1 : (Nat.sqrt x : ℤ) * Nat.sqrt x ≤ (x : ℤ) := by
    exact_mod_cast Nat.sqrt_le x
  have h2 : (x : ℤ) < ((Nat.sqrt x : ℤ) + 1) * ((Nat.sqrt x : ℤ) + 1) := by
    have := Nat.lt_succ_sqrt x
    exact_mod_cast this
  by_cases h0 : (x : ℤ) - (Nat.sqrt x : ℤ) * Nat.sqrt x = 0
  · rw [if_pos h0]
  · rw [if_neg h0, upLoop_noop (by dsimp only; nlinarith)]

/-- Postcondition of the large-`x` path of `sqrtrem_python` under the
documented accuracy of the fast square root: whenever the float-seeded
estimate `e` is at least `Nat.sqrt x - 1` (the source docstring allows
`isqrt_fast` to be one unit low), the corrected result satisfies
`y*y + r = x` and `0 ≤ r ≤ 2*y`. -/
theorem sqrtremLarge_postcondition (x e fuel : ℕ) (h : Nat.sqrt x ≤ e + 1) :
    ((sqrtremLarge e x fuel).1 : ℤ) * (sqrtremLarge e x fuel).1 +
        (sqrtremLarge e x fuel).2 = x ∧
    0 ≤ (sqrtremLarge e x fuel).2 ∧
    (sqrtremLarge e x fuel).2 ≤ 2 * ((sqrtremLarge e x fuel).1 : ℤ) := by
  rw [sqrtremLarge_correct x e fuel h]
  dsimp only
  have h1 : (Nat.sqrt x : ℤ) * Nat.sqrt x ≤ (x : ℤ) := by
    exact_mod_cast Nat.sqrt_le x
  have h2 : (x : ℤ) < ((Nat.sqrt x : ℤ) + 1) * ((Nat.sqrt x : ℤ) + 1) := by
    have := Nat.lt_succ_sqrt x
    exact_mod_cast this
  refine ⟨by ring, by linarith, by nlinarith⟩

/-- A seed two units below the true root defeats the correction: with
`x = 100` and `e = 8` (true root 10), the result `(9, 19)` has
`r = 19 > 2 * 9`, violating the claimed postcondition.  This is why the
unconditional claim depends on the accuracy of the float-seeded
`isqrt_fast_python`. -/
theorem sqrtremLarge_seed_two_low :
    sqrtremLarge 8 100 101 = (9, 19) ∧ ¬((19 : ℤ) ≤ 2 * 9) :=
  ⟨by decide, by decide⟩

lemma newton_step_ge_sqrt (x r : ℕ) (hr : 1 ≤ r) :
    Nat.sqrt x ≤ (r + x / r) / 2 := by
  by_contra hcon
  push_neg at hcon
  have ha1z : ((x / r : ℕ) : ℤ) + 1 ≤ 2 * (Nat.sqrt x : ℤ) - (r : ℤ) := by omega
  have hxa : r * (x / r) + x % r = x := Nat.div_add_mod x r
  have hxr : x % r < r := Nat.mod_lt _ (by omega)
  have hx1z : (x : ℤ) < (r : ℤ) * (((x / r : ℕ) : ℤ) + 1) := by
    have hz : (r : ℤ) * ((x / r : ℕ) : ℤ) + ((x % r : ℕ) : ℤ) = x := by
      exact_mod_cast hxa
    have hz2 : ((x % r : ℕ) : ℤ) < (r : ℤ) := by exact_mod_cast hxr
    nlinarith
  have key : (r : ℤ) * (((x / r : ℕ) : ℤ) + 1) ≤
      (r : ℤ) * (2 * (Nat.sqrt x : ℤ) - (r : ℤ)) :=
    mul_le_mul_of_nonneg_left ha1z (by positivity)
  have htsz : (Nat.sqrt x : ℤ) * Nat.sqrt x ≤ (x : ℤ) := by
    exact_mod_cast Nat.sqrt_le x
  nlinarith [sq_nonneg ((Nat.sqrt x : ℤ) - (r : ℤ))]

lemma newton_step_lt (x r : ℕ) (hr : Nat.sqrt x < r) : (r + x / r) / 2 < r := by
  have h2 : x < (Nat.sqrt x + 1) * r :=
    lt_of_lt_of_le (Nat.lt_succ_sqrt x) (Nat.mul_le_mul_left _ hr)
  have h3 : x / r < Nat.sqrt x + 1 := by
    apply Nat.div_lt_of_lt_mul
    rwa [Nat.mul_comm] at h2
  omega

/-- The descending Newton iteration of `isqrt_small_python` returns the
exact floor square root from every seed at least the true root (as the
source docstring requires of the float-derived seed). -/
lemma newtonLoop_correct (x : ℕ) :
    ∀ f r, Nat.sqrt x ≤ r → r ≤ f → newtonLoop x f r = Nat.sqrt x := by
  intro f
  induction f with
  | zero =>
      intro r h1 h2
      rw [newtonLoop]
      omega
  | succ f ih =>
      intro r h1 h2
      rw [newtonLoop]
      by_cases hc : r ≤ (r + x / r) / 2
      · rw [if_pos hc]
        rcases eq_or_lt_of_le h1 with heq | hlt
        · exact heq.symm
        · exact absurd hc (by have := newton_step_lt x r hlt; omega)
      · rw [if_neg hc]
        push_neg at hc
        have hr1 : 1 ≤ r := by
          rcases Nat.eq_zero_or_pos r with rfl | hpos
          · exact absurd hc (Nat.not_lt_zero _)
          · exact hpos
        exact ih _ (newton_step_ge_sqrt x r hr1) (by omega)

/-- Postcondition of `sqrtrem_python` on both paths, conditional on the
documented seed accuracy: the small-path Newton seed is at least the
root, and the fast-path estimate is at least one less than the root.
Under those (float-dependent) assumptions the result `(y, r)` always
satisfies `y*y + r = x` and `0 ≤ r ≤ 2*y`. -/
theorem sqrtrem_python_postcondition (x eS eF : ℕ)
    (hS : Nat.sqrt x ≤ eS) (hF : Nat.sqrt x ≤ eF + 1) :
    ((sqrtrem_python eS eF x).1 : ℤ) * (sqrtrem_python eS eF x).1 +
        (sqrtrem_python eS eF x).2 = x ∧
    0 ≤ (sqrtrem_python eS eF x).2 ∧
    (sqrtrem_python eS eF x).2 ≤ 2 * ((sqrtrem_python eS eF x).1 : ℤ) := by
  rw [sqrtrem_python]
  by_cases hx : x < 2 ^ 600
  · rw [if_pos hx, newtonLoop_correct x eS eS hS le_rfl]
    dsimp only
    have h1 : (Nat.sqrt x : ℤ) * Nat.sqrt x ≤ (x : ℤ) := by
      exact_mod_cast Nat.sqrt_le x
    have h2 : (x : ℤ) < ((Nat.sqrt x : ℤ) + 1) * ((Nat.sqrt x : ℤ) + 1) := by
      have := Nat.lt_succ_sqrt x
      exact_mod_cast this
    refine ⟨by ring, by linarith, by nlinarith⟩
  · rw [if_neg hx]
    exact sqrtremLarge_postcondition x eF (x + 1) hF

/-- Witness instantiation of the conditional postcondition at
`x = 123456` with seeds `eS = eF = 400` (the true root is 351). -/
theorem sqrtrem_python_postcondition_witness :
    ((sqrtrem_python 400 400 123456).1 : ℤ) * (sqrtrem_python 400 400 123456).1 +
        (sqrtrem_python 400 400 123456).2 = ((123456 : ℕ) : ℤ) ∧
    0 ≤ (sqrtrem_python 400 400 123456).2 ∧
    (sqrtrem_python 400 400 123456).2 ≤ 2 * ((sqrtrem_python 400 400 123456).1 : ℤ) :=
  sqrtrem_python_postcondition 123456 400 400
    (by have := Nat.sqrt_lt.2 (show 123456 < 401 * 401 by norm_num); omega)
    (by have := Nat.sqrt_lt.2 (show 123456 < 401 * 401 by norm_num); omega)
